import Mathlib

/-!
Verification of `scripts/mk2bash.py`, a utility that converts Make-style
variable assignments (`VAR := value`) into bash-style assignments
(`VAR=value`), rewriting Make expansion syntax `$(X)` into shell syntax
`${X}`.

The program is embedded shallowly: text is modelled as `List Char`,
standard output and the error stream as lists of printed lines, and the
whole process as a pure function from the argument vector and a file
system to an exit code plus the two streams.
-/

namespace Mk2Bash

/-- Whitespace as recognised by Python's `str.strip` and the regex class
`\s` (restricted to the ASCII range, which is all the program's own
syntax uses): space, tab, newline, carriage return, vertical tab, form
feed. -/
def isPyWS (c : Char) : Bool :=
  c = ' ' || c = '\t' || c = '\n' || c = '\r' || c = '\x0b' || c = '\x0c'

/-- Characters matched by the regex class `[A-Z_]` in
`^([A-Z_]+)\s*:=\s*(.*)$` (line 37 of the script). -/
def isNameChar (c : Char) : Bool :=
  ('A' ≤ c && c ≤ 'Z') || c = '_'

/-- Python `line.strip()`: remove leading and trailing whitespace. -/
def pyStrip (l : List Char) : List Char :=
  ((l.dropWhile isPyWS).reverse.dropWhile isPyWS).reverse

/-- `re.match(r'^([A-Z_]+)\s*:=\s*(.*)$', line)` on an already stripped
line: a non-empty maximal run of `[A-Z_]` characters, optional
whitespace, the literal `:=`, optional whitespace, then the rest of the
line as the captured value.  Because the character classes `[A-Z_]`,
`\s` and the literals `:` `=` are pairwise disjoint, the backtracking
regex engine's answer coincides with this maximal-munch reading. -/
def matchAssign (l : List Char) : Option (List Char × List Char) :=
  if (l.takeWhile isNameChar).isEmpty then none
  else
    match (l.dropWhile isNameChar).dropWhile isPyWS with
    | c1 :: c2 :: rest =>
        if c1 = ':' ∧ c2 = '=' then
          some (l.takeWhile isNameChar, rest.dropWhile isPyWS)
        else none
    | _ => none

/-- Fuel-indexed worker for the substitution loop of
`re.sub(r'\$\(([^)]+)\)', r'${\1}', value)` (line 43 of the script):
left-to-right scan; at each position, if the text reads `$(`, then a
non-empty run of characters other than `)`, then `)`, replace the whole
match by `${run}` and resume after it; otherwise copy one character and
advance.  Each step consumes at least one character, so fuel equal to
the length of the input suffices; the fuel-exhausted case is
unreachable under that invariant. -/
def pySubAux : Nat → List Char → List Char
  | _, [] => []
  | 0, l => l
  | fuel + 1, c :: rest =>
    if c = '$' ∧ rest.head? = some '(' ∧
        rest.tail.takeWhile (fun d => d != ')') ≠ [] ∧
        rest.tail.dropWhile (fun d => d != ')') ≠ [] then
      '$' :: '{' ::
        (rest.tail.takeWhile (fun d => d != ')') ++
          '}' :: pySubAux fuel (rest.tail.dropWhile (fun d => d != ')')).tail)
    else c :: pySubAux fuel rest

/-- The substitution at line 43 of the script, with the fuel instantiated
to the input length. -/
def pySub (l : List Char) : List Char :=
  pySubAux l.length l

/-- One iteration of the loop at lines 31–45 of the script: `none` when
the line is skipped (blank, comment, or not an assignment), `some out`
when the line `out` is printed. -/
def processLine (line : List Char) : Option (List Char) :=
  if (pyStrip line).head? = some '#' ∨ (pyStrip line).isEmpty then none
  else
    match matchAssign (pyStrip line) with
    | some (name, value) => some (name ++ '=' :: pySub value)
    | none => none

/-- Python `content.split('\n')`: split on every newline, keeping empty
pieces; the result always has one more piece than there are newlines. -/
def splitLines : List Char → List (List Char)
  | [] => [[]]
  | c :: rest =>
    if c = '\n' then [] :: splitLines rest
    else
      match splitLines rest with
      | l :: ls => (c :: l) :: ls
      | [] => [[c]]

/-- First header line printed at line 26 of the script. -/
def header1 : List Char :=
  "# Generated from config.mk - DO NOT EDIT DIRECTLY".toList

/-- Second header line printed at line 27 of the script (the source text
encloses the make command in single quotes, built here via `Char.ofNat
39`). -/
def header2 : List Char :=
  "# Edit config.mk instead and run ".toList ++
    Char.ofNat 39 :: "make .github/workflows/config.env".toList ++
    [Char.ofNat 39]

/-- The three lines printed before the loop: the two comment lines and
the blank line from the bare `print()`. -/
def headerLines : List (List Char) := [header1, header2, []]

/-- Everything the script prints to standard output on a successful run
over file contents `content`. -/
def convertOutput (content : List Char) : List (List Char) :=
  headerLines ++ (splitLines content).filterMap processLine

/-- Result of attempting to open a file: its contents, or the
`FileNotFoundError` case, or the exists-but-unreadable case (which in
Python raises `PermissionError`). -/
inductive OpenResult
  | ok (content : List Char)
  | notFound
  | notReadable
deriving DecidableEq

/-- Message printed to the error stream at line 23 of the script (the
path is appended after it). -/
def couldNotFind : List Char := "Error: Could not find ".toList

/-- Usage message printed to the error stream at line 49 of the script. -/
def usageMsg : List Char := "Usage: mk2bash.py <make_config_file>".toList

/-- What the CPython runtime itself writes to the error stream when the
`open` call raises an uncaught `PermissionError` (the script's `except`
clause at line 22 only catches `FileNotFoundError`): a traceback ending
in the exception message.  The interpreter then exits with status 1. -/
def permissionTraceback (path : List Char) : List (List Char) :=
  ["Traceback (most recent call last):".toList,
   "PermissionError: [Errno 13] Permission denied: ".toList ++ path]

/-- Observable outcome of one invocation: exit status, standard-output
lines, error-stream lines. -/
structure ProgResult where
  exitCode : Nat
  stdout : List (List Char)
  stderr : List (List Char)
deriving DecidableEq

/-- The whole program (`main` at line 47 plus `convert_make_to_bash`):
`argv` is `sys.argv` including the program name, `fs` maps a path to the
outcome of opening it. -/
def run (argv : List (List Char)) (fs : List Char → OpenResult) :
    ProgResult :=
  match argv with
  | [_, path] =>
    match fs path with
    | .ok content => ⟨0, convertOutput content, []⟩
    | .notFound => ⟨1, [], [couldNotFind ++ path]⟩
    | .notReadable => ⟨1, [], permissionTraceback path⟩
  | _ => ⟨1, [], [usageMsg]⟩

/-! Helper lemmas about the substitution worker. -/

/-- The worker sends the empty list to the empty list at every fuel. -/
theorem pySubAux_nil (f : Nat) : pySubAux f [] = [] := by
  cases f <;> rfl

/-- One-step unfolding of the worker at successor fuel on a cons. -/
theorem pySubAux_succ_cons (f : Nat) (c : Char) (rest : List Char) :
    pySubAux (f + 1) (c :: rest) =
      if c = '$' ∧ rest.head? = some '(' ∧
          rest.tail.takeWhile (fun d => d != ')') ≠ [] ∧
          rest.tail.dropWhile (fun d => d != ')') ≠ [] then
        '$' :: '{' ::
          (rest.tail.takeWhile (fun d => d != ')') ++
            '}' :: pySubAux f (rest.tail.dropWhile (fun d => d != ')')).tail)
      else c :: pySubAux f rest := rfl

/-- The tail of the remainder after the scanned run is no longer than
the whole tail: the worker consumes at least one character per step. -/
theorem pySub_step_le (rest : List Char) :
    ((rest.tail.dropWhile (fun d => d != ')')).tail).length ≤ rest.length := by
  have h1 := (List.dropWhile_suffix (l := rest.tail)
    (fun d => d != ')')).length_le
  have h2 := List.length_tail (rest.tail.dropWhile (fun d => d != ')'))
  have h3 := List.length_tail rest
  omega

/-- The worker ignores the exact fuel as long as it is at least the
input length. -/
theorem pySubAux_fuel_irrel :
    ∀ f g : Nat, ∀ l : List Char, l.length ≤ f → l.length ≤ g →
      pySubAux f l = pySubAux g l := by
  intro f
  induction f with
  | zero =>
    intro g l hf _
    have : l = [] := List.eq_nil_of_length_eq_zero (Nat.le_zero.mp hf)
    subst this
    rw [pySubAux_nil, pySubAux_nil]
  | succ f ih =>
    intro g l hf hg
    cases l with
    | nil => rw [pySubAux_nil, pySubAux_nil]
    | cons c rest =>
      cases g with
      | zero => simp at hg
      | succ g =>
        simp only [List.length_cons, Nat.succ_le_succ_iff] at hf hg
        rw [pySubAux_succ_cons, pySubAux_succ_cons]
        by_cases hc : c = '$' ∧ rest.head? = some '(' ∧
            rest.tail.takeWhile (fun d => d != ')') ≠ [] ∧
            rest.tail.dropWhile (fun d => d != ')') ≠ []
        · rw [if_pos hc, if_pos hc,
            ih g _ (le_trans (pySub_step_le rest) hf)
              (le_trans (pySub_step_le rest) hg)]
        · rw [if_neg hc, if_neg hc, ih g rest hf hg]

/-- Unfolding equation for `pySub` on a non-empty input. -/
theorem pySub_cons (c : Char) (rest : List Char) :
    pySub (c :: rest) =
      if c = '$' ∧ rest.head? = some '(' ∧
          rest.tail.takeWhile (fun d => d != ')') ≠ [] ∧
          rest.tail.dropWhile (fun d => d != ')') ≠ [] then
        '$' :: '{' ::
          (rest.tail.takeWhile (fun d => d != ')') ++
            '}' :: pySub (rest.tail.dropWhile (fun d => d != ')')).tail)
      else c :: pySub rest := by
  show pySubAux (rest.length + 1) (c :: rest) = _
  rw [pySubAux_succ_cons]
  by_cases hc : c = '$' ∧ rest.head? = some '(' ∧
      rest.tail.takeWhile (fun d => d != ')') ≠ [] ∧
      rest.tail.dropWhile (fun d => d != ')') ≠ []
  · rw [if_pos hc, if_pos hc,
      pySubAux_fuel_irrel rest.length _ _ (pySub_step_le rest) le_rfl]
    rfl
  · rw [if_neg hc, if_neg hc]
    rfl

/-- `pySub` leaves the empty value unchanged. -/
theorem pySub_nil : pySub [] = [] := rfl

/-- A character that is not `$` is copied unchanged. -/
theorem pySub_cons_ne (c : Char) (rest : List Char) (h : c ≠ '$') :
    pySub (c :: rest) = c :: pySub rest := by
  rw [pySub_cons, if_neg]
  intro hc
  exact h hc.1

/-- Scanning a run of non-`)` characters followed by `)` splits exactly
at the `)`. -/
theorem scan_run (x r : List Char) (hall : ∀ c ∈ x, c ≠ ')') :
    (x ++ ')' :: r).takeWhile (fun d => d != ')') = x ∧
      (x ++ ')' :: r).dropWhile (fun d => d != ')') = ')' :: r := by
  induction x with
  | nil => simp
  | cons a x ih =>
    have ha : (a != ')') = true := by
      simp only [bne_iff_ne, ne_eq]
      exact hall a (List.mem_cons_self a x)
    have ih2 := ih (fun c hc => hall c (List.mem_cons_of_mem a hc))
    simp only [List.cons_append, List.takeWhile_cons, List.dropWhile_cons,
      ha, if_true]
    exact ⟨congrArg (a :: ·) ih2.1, ih2.2⟩

/-- The substitution rewrites a leading `$(x)` with `x` a non-empty run
of non-`)` characters into `${x}` and continues after it. -/
theorem pySub_replace (x r : List Char) (hx : x ≠ [])
    (hall : ∀ c ∈ x, c ≠ ')') :
    pySub ('$' :: '(' :: (x ++ ')' :: r)) =
      '$' :: '{' :: (x ++ '}' :: pySub r) := by
  obtain ⟨ht, hd⟩ := scan_run x r hall
  rw [pySub_cons]
  rw [if_pos]
  · simp only [List.tail_cons, ht, hd, List.tail_cons]
  · refine ⟨rfl, rfl, ?_, ?_⟩
    · simpa only [List.tail_cons, ht] using hx
    · simp only [List.tail_cons, hd]
      exact List.cons_ne_nil _ _

/-- A non-empty `takeWhile` forces a head satisfying the predicate. -/
theorem takeWhile_ne_nil_cases {p : Char → Bool} {s : List Char}
    (h : s.takeWhile p ≠ []) : ∃ c t, s = c :: t ∧ p c = true := by
  cases s with
  | nil => simp at h
  | cons c t =>
    by_cases hp : p c
    · exact ⟨c, t, rfl, hp⟩
    · rw [List.takeWhile_cons_of_neg hp] at h
      exact absurd rfl h

/-- Inversion of the assignment pattern: a successful match yields the
maximal `[A-Z_]` run as name, a literal `:=` after optional whitespace,
and the rest of the line (leading whitespace removed) as value. -/
theorem matchAssign_inv {s n v : List Char}
    (h : matchAssign s = some (n, v)) :
    n = s.takeWhile isNameChar ∧ n ≠ [] ∧
      ∃ rest, (s.dropWhile isNameChar).dropWhile isPyWS =
        ':' :: '=' :: rest ∧ v = rest.dropWhile isPyWS := by
  unfold matchAssign at h
  split at h
  · exact Option.noConfusion h
  · rename_i he
    split at h
    · rename_i c1 c2 rest heq
      split at h
      · rename_i hce
        simp only [Option.some.injEq, Prod.mk.injEq] at h
        obtain ⟨h1, h2⟩ := h
        refine ⟨h1.symm, ?_, rest, ?_, h2.symm⟩
        · rw [← h1]
          intro hnil
          exact he (by rw [hnil]; rfl)
        · rw [heq, hce.1, hce.2]
      · exact Option.noConfusion h
    · exact Option.noConfusion h

/-- A line whose stripped form matches the assignment pattern is neither
blank nor a comment, so the loop prints the rewritten assignment. -/
theorem processLine_of_match {line n v : List Char}
    (h : matchAssign (pyStrip line) = some (n, v)) :
    processLine line = some (n ++ '=' :: pySub v) := by
  obtain ⟨h1, h2, _, _, _⟩ := matchAssign_inv h
  obtain ⟨c, t, hs, hp⟩ := takeWhile_ne_nil_cases (s := pyStrip line)
    (fun hnil => h2 (h1.trans hnil))
  have hcond : ¬((pyStrip line).head? = some '#' ∨
      (pyStrip line).isEmpty) := by
    rw [hs]
    rintro (hh | hh)
    · simp only [List.head?_cons, Option.some.injEq] at hh
      rw [hh] at hp
      exact absurd hp (by decide)
    · simp at hh
  unfold processLine
  rw [if_neg hcond, h]

/-- Inversion of the loop body: a printed line comes from a matched
assignment. -/
theorem processLine_some_inv {line out : List Char}
    (h : processLine line = some out) :
    ∃ n v, matchAssign (pyStrip line) = some (n, v) ∧
      out = n ++ '=' :: pySub v := by
  unfold processLine at h
  split at h
  · exact Option.noConfusion h
  · split at h
    · rename_i nm vl heq
      injection h with h
      exact ⟨nm, vl, heq, h.symm⟩
    · exact Option.noConfusion h

/-- A piece of text without newline characters splits into the single
line it is. -/
theorem splitLines_eq_single {l : List Char} (h : '\n' ∉ l) :
    splitLines l = [l] := by
  induction l with
  | nil => rfl
  | cons c rest ih =>
    have hc : c ≠ '\n' := fun he => h (he ▸ List.mem_cons_self c rest)
    have hr : '\n' ∉ rest := fun hm => h (List.mem_cons_of_mem c hm)
    unfold splitLines
    rw [if_neg hc, ih hr]

/-- The loop's output is the per-line output mapped over the sub-sequence
of lines that produce output, in input order. -/
theorem filterMap_eq_filter_map (l : List (List Char)) :
    l.filterMap processLine =
      (l.filter (fun a => (processLine a).isSome)).map
        (fun a => (processLine a).getD []) := by
  induction l with
  | nil => rfl
  | cons a l ih =>
    cases hp : processLine a with
    | none => simp [List.filterMap_cons, List.filter_cons, hp, ih]
    | some out => simp [List.filterMap_cons, List.filter_cons, hp, ih]

/-- The substitution never turns a non-empty value into an empty one. -/
theorem pySub_ne_nil {l : List Char} (h : l ≠ []) : pySub l ≠ [] := by
  cases l with
  | nil => exact absurd rfl h
  | cons c rest =>
    rw [pySub_cons]
    split <;> exact List.cons_ne_nil _ _

/-- The substitution preserves the first character of the value. -/
theorem pySub_head? (l : List Char) : (pySub l).head? = l.head? := by
  cases l with
  | nil => rfl
  | cons c rest =>
    rw [pySub_cons]
    by_cases hc : c = '$' ∧ rest.head? = some '(' ∧
        rest.tail.takeWhile (fun d => d != ')') ≠ [] ∧
        rest.tail.dropWhile (fun d => d != ')') ≠ []
    · rw [if_pos hc]
      simp [hc.1]
    · rw [if_neg hc]
      simp

/-- Dropping the head of a cons does not change the last element when
the tail is non-empty. -/
theorem getLast?_cons_of_ne_nil {l : List Char} (c : Char) (h : l ≠ []) :
    (c :: l).getLast? = l.getLast? := by
  cases l with
  | nil => exact absurd rfl h
  | cons d t => exact List.getLast?_cons_cons

/-- A non-empty suffix has the same last element as the whole list. -/
theorem suffix_getLast? {v s : List Char} (hsuf : v <:+ s) (hv : v ≠ []) :
    s.getLast? = v.getLast? := by
  obtain ⟨t, rfl⟩ := hsuf
  exact List.getLast?_append_of_ne_nil t hv

/-- The head surviving a `dropWhile` falsifies the predicate. -/
theorem head?_dropWhile_eq_false {p : Char → Bool} {l : List Char}
    {c : Char} (h : (l.dropWhile p).head? = some c) : p c = false := by
  have hd := List.head?_dropWhile_not p l
  rw [h] at hd
  exact hd

/-- A stripped line never ends in whitespace. -/
theorem pyStrip_getLast?_not_ws {l : List Char} {c : Char}
    (h : (pyStrip l).getLast? = some c) : isPyWS c = false := by
  unfold pyStrip at h
  rw [List.getLast?_reverse] at h
  exact head?_dropWhile_eq_false h

/-- The substitution either keeps the last character of the value or
ends the value with the closing brace of a rewritten expansion. -/
theorem pySub_getLast?_cases (l : List Char) :
    (pySub l).getLast? = l.getLast? ∨ (pySub l).getLast? = some '}' := by
  suffices H : ∀ n : Nat, ∀ l : List Char, l.length ≤ n →
      ((pySub l).getLast? = l.getLast? ∨ (pySub l).getLast? = some '}') from
    H l.length l le_rfl
  intro n
  induction n with
  | zero =>
    intro l hl
    have : l = [] := List.eq_nil_of_length_eq_zero (Nat.le_zero.mp hl)
    subst this
    left
    rfl
  | succ n ih =>
    intro l hl
    cases l with
    | nil => left; rfl
    | cons c rest =>
      simp only [List.length_cons, Nat.succ_le_succ_iff] at hl
      rw [pySub_cons]
      by_cases hc : c = '$' ∧ rest.head? = some '(' ∧
          rest.tail.takeWhile (fun d => d != ')') ≠ [] ∧
          rest.tail.dropWhile (fun d => d != ')') ≠ []
      · rw [if_pos hc]
        by_cases ht : (rest.tail.dropWhile (fun d => d != ')')).tail = []
        · rw [ht, pySub_nil]
          right
          rw [show ('$' :: '{' ::
                (rest.tail.takeWhile (fun d => d != ')') ++
                  '}' :: ([] : List Char))) =
              (('$' :: '{' :: rest.tail.takeWhile (fun d => d != ')')) ++
                ['}']) by simp]
          rw [List.getLast?_append_of_ne_nil _ (List.cons_ne_nil _ _)]
          rfl
        · have hp := pySub_ne_nil ht
          have e1 : ('$' :: '{' ::
              (rest.tail.takeWhile (fun d => d != ')') ++
                '}' :: pySub (rest.tail.dropWhile
                  (fun d => d != ')')).tail)).getLast? =
              (pySub (rest.tail.dropWhile
                (fun d => d != ')')).tail).getLast? := by
            rw [show ('$' :: '{' ::
                  (rest.tail.takeWhile (fun d => d != ')') ++
                    '}' :: pySub (rest.tail.dropWhile
                      (fun d => d != ')')).tail)) =
                (('$' :: '{' :: rest.tail.takeWhile (fun d => d != ')') ++
                  ['}']) ++ pySub (rest.tail.dropWhile
                    (fun d => d != ')')).tail) by simp]
            exact List.getLast?_append_of_ne_nil _ hp
          rw [e1]
          have hlen : ((rest.tail.dropWhile (fun d => d != ')')).tail).length
              ≤ n := le_trans (pySub_step_le rest) hl
          rcases ih _ hlen with h | h
          · left
            rw [h]
            have hsuf : (rest.tail.dropWhile (fun d => d != ')')).tail <:+
                c :: rest := by
              have s1 := List.tail_suffix
                (rest.tail.dropWhile (fun d => d != ')'))
              have s2 := List.dropWhile_suffix (l := rest.tail)
                (fun d => d != ')')
              have s3 := List.tail_suffix rest
              have s4 := List.suffix_cons c rest
              exact s1.trans (s2.trans (s3.trans s4))
            exact (suffix_getLast? hsuf ht).symm
          · right
            exact h
      · rw [if_neg hc]
        by_cases hr : rest = []
        · subst hr
          left
          rw [pySub_nil]
        · have hp := pySub_ne_nil hr
          rw [getLast?_cons_of_ne_nil c hp, getLast?_cons_of_ne_nil c hr]
          exact ih rest hl

/-! The claims. -/

/-- C1: every input line whose stripped form matches the assignment
pattern `NAME := value` makes the program emit `NAME=value'`, where
`value'` is the captured value with each occurrence of `$(X)` (`X` a
non-empty run of characters other than `)`) rewritten purely textually
to `${X}` and every other character copied unchanged; the emitted line
appears in the output of any document containing the line. -/
theorem assignment_line_emitted (line n v : List Char)
    (h : matchAssign (pyStrip line) = some (n, v)) :
    processLine line = some (n ++ '=' :: pySub v) ∧
    (∀ content, line ∈ splitLines content →
      n ++ '=' :: pySub v ∈ convertOutput content) ∧
    (∀ x r : List Char, x ≠ [] → (∀ c ∈ x, c ≠ ')') →
      pySub ('$' :: '(' :: (x ++ ')' :: r)) =
        '$' :: '{' :: (x ++ '}' :: pySub r)) ∧
    (∀ (c : Char) (r : List Char), c ≠ '$' →
      pySub (c :: r) = c :: pySub r) ∧
    pySub [] = [] := by
  refine ⟨processLine_of_match h, ?_, pySub_replace, pySub_cons_ne,
    pySub_nil⟩
  intro content hmem
  unfold convertOutput
  exact List.mem_append_right _
    (List.mem_filterMap.mpr ⟨line, hmem, processLine_of_match h⟩)

/-- Witness for C1 at the concrete line `  BAZ := $(FOO)/baz `. -/
theorem assignment_line_emitted_witness :
    matchAssign (pyStrip "  BAZ := $(FOO)/baz ".toList) =
      some ("BAZ".toList, "$(FOO)/baz".toList) ∧
    processLine "  BAZ := $(FOO)/baz ".toList =
      some ("BAZ".toList ++ '=' :: pySub "$(FOO)/baz".toList) :=
  ⟨by decide,
    (assignment_line_emitted "  BAZ := $(FOO)/baz ".toList
      "BAZ".toList "$(FOO)/baz".toList (by decide)).1⟩

/-- C2: whenever the named file cannot be opened — missing or
unreadable — the process exits with a non-zero status, writes a message
to the error stream, and writes nothing at all to standard output. -/
theorem file_error_no_output (prog path : List Char)
    (fs : List Char → OpenResult)
    (h : fs path = OpenResult.notFound ∨
      fs path = OpenResult.notReadable) :
    (run [prog, path] fs).exitCode ≠ 0 ∧
    (run [prog, path] fs).stdout = [] ∧
    (run [prog, path] fs).stderr ≠ [] := by
  rcases h with h | h <;>
    simp [run, h, permissionTraceback]

/-- Witness for C2 at a file system where the file is missing. -/
theorem file_error_no_output_witness :
    ((fun _ => OpenResult.notFound) "config.mk".toList =
        OpenResult.notFound ∨
      (fun _ => OpenResult.notFound) "config.mk".toList =
        OpenResult.notReadable) ∧
    (run ["mk2bash.py".toList, "config.mk".toList]
        (fun _ => OpenResult.notFound)).exitCode ≠ 0 ∧
    (run ["mk2bash.py".toList, "config.mk".toList]
        (fun _ => OpenResult.notFound)).stdout = [] ∧
    (run ["mk2bash.py".toList, "config.mk".toList]
        (fun _ => OpenResult.notFound)).stderr ≠ [] :=
  ⟨Or.inl rfl,
    file_error_no_output "mk2bash.py".toList "config.mk".toList
      (fun _ => OpenResult.notFound) (Or.inl rfl)⟩

/-- C3: a line whose stripped form is non-blank, not a comment, and not
an assignment is silently dropped: the loop prints nothing for it and a
file consisting of that line alone still succeeds, emitting only the
header. -/
theorem non_assignment_line_dropped (line : List Char)
    (hne : pyStrip line ≠ [])
    (hnc : (pyStrip line).head? ≠ some '#')
    (hnm : matchAssign (pyStrip line) = none) :
    processLine line = none ∧
    ('\n' ∉ line → ∀ prog path fs, fs path = OpenResult.ok line →
      run [prog, path] fs = ⟨0, headerLines, []⟩) := by
  have hp : processLine line = none := by
    unfold processLine
    split
    · rfl
    · rw [hnm]
  refine ⟨hp, ?_⟩
  intro hnl prog path fs hfs
  have hco : convertOutput line = headerLines := by
    unfold convertOutput
    rw [splitLines_eq_single hnl, List.filterMap_cons, hp,
      List.filterMap_nil, List.append_nil]
  simp [run, hfs, hco]

/-- Witness for C3 at the concrete rule line `target: dep`. -/
theorem non_assignment_line_dropped_witness :
    pyStrip "target: dep".toList ≠ [] ∧
    (pyStrip "target: dep".toList).head? ≠ some '#' ∧
    matchAssign (pyStrip "target: dep".toList) = none ∧
    processLine "target: dep".toList = none :=
  ⟨by decide, by decide, by decide,
    (non_assignment_line_dropped "target: dep".toList
      (by decide) (by decide) (by decide)).1⟩

/-- C4: a line that strips to the empty string or to one starting with
`#` produces no output line. -/
theorem blank_or_comment_dropped (line : List Char)
    (h : pyStrip line = [] ∨ (pyStrip line).head? = some '#') :
    processLine line = none := by
  unfold processLine
  rw [if_pos]
  rcases h with h | h
  · exact Or.inr (by rw [h]; rfl)
  · exact Or.inl h

/-- Witness for C4 at the concrete comment line `   # a comment`. -/
theorem blank_or_comment_dropped_witness :
    (pyStrip "   # a comment".toList = [] ∨
      (pyStrip "   # a comment".toList).head? = some '#') ∧
    processLine "   # a comment".toList = none :=
  ⟨by decide,
    blank_or_comment_dropped "   # a comment".toList (by decide)⟩

/-- C5: the output is the header followed by the per-line outputs of
exactly the matched lines, in input order — a stable filter-map over
the input line sequence. -/
theorem output_is_stable_filter (content : List Char) :
    convertOutput content = headerLines ++
      ((splitLines content).filter (fun l => (processLine l).isSome)).map
        (fun l => (processLine l).getD []) := by
  unfold convertOutput
  rw [filterMap_eq_filter_map]

/-- C6: any invocation whose argument vector does not consist of the
program name plus exactly one positional argument exits with status 1,
prints the usage message to the error stream, and writes nothing to
standard output. -/
theorem usage_error (argv : List (List Char))
    (fs : List Char → OpenResult) (h : argv.length ≠ 2) :
    run argv fs = ⟨1, [], [usageMsg]⟩ := by
  match argv with
  | [] => rfl
  | [a] => rfl
  | [a, b] => exact absurd rfl h
  | a :: b :: c :: t => rfl

/-- Witness for C6 at the empty argument vector. -/
theorem usage_error_witness :
    ([] : List (List Char)).length ≠ 2 ∧
    run [] (fun _ => OpenResult.notFound) = ⟨1, [], [usageMsg]⟩ :=
  ⟨by decide, usage_error [] (fun _ => OpenResult.notFound) (by decide)⟩

/-- C7: invoking the program on a nonexistent file exits with status 1,
emits exactly `Error: Could not find <path>` to the error stream, and
writes nothing to standard output. -/
theorem missing_file_error (prog path : List Char)
    (fs : List Char → OpenResult) (h : fs path = OpenResult.notFound) :
    run [prog, path] fs = ⟨1, [], [couldNotFind ++ path]⟩ := by
  simp [run, h]

/-- Witness for C7 at a file system where `config.mk` is missing. -/
theorem missing_file_error_witness :
    (fun _ => OpenResult.notFound) "config.mk".toList =
      OpenResult.notFound ∧
    run ["mk2bash.py".toList, "config.mk".toList]
        (fun _ => OpenResult.notFound) =
      ⟨1, [], [couldNotFind ++ "config.mk".toList]⟩ :=
  ⟨rfl,
    missing_file_error "mk2bash.py".toList "config.mk".toList
      (fun _ => OpenResult.notFound) rfl⟩

/-- C8: on a successful run, standard output is exactly the two fixed
header lines, one blank line, then the rewritten assignment lines with
nothing after them; nothing goes to the error stream and the process
exits with status 0. -/
theorem success_output_shape (prog path content : List Char)
    (fs : List Char → OpenResult) (h : fs path = OpenResult.ok content) :
    run [prog, path] fs =
      ⟨0, header1 :: header2 :: [] ::
        (splitLines content).filterMap processLine, []⟩ := by
  simp [run, h, convertOutput, headerLines]

/-- Witness for C8 at the one-line file `FOO := bar`. -/
theorem success_output_shape_witness :
    (fun _ => OpenResult.ok "FOO := bar".toList) "config.mk".toList =
      OpenResult.ok "FOO := bar".toList ∧
    run ["mk2bash.py".toList, "config.mk".toList]
        (fun _ => OpenResult.ok "FOO := bar".toList) =
      ⟨0, header1 :: header2 :: [] ::
        (splitLines "FOO := bar".toList).filterMap processLine, []⟩ :=
  ⟨rfl,
    success_output_shape "mk2bash.py".toList "config.mk".toList
      "FOO := bar".toList (fun _ => OpenResult.ok "FOO := bar".toList)
      rfl⟩

/-- C9 counterexample: for the matched line `FOO := $(a$()` the captured
value `$(a$()` contains the literal occurrence `$()`, yet the
substitution's greedy scan matches `$(a$()` itself (run `a$(`) and
rewrites it, so no occurrence of `$()` survives in the emitted value:
taken over all matched lines, "every literal occurrence of `$()` is
left unchanged" is false. -/
theorem empty_parens_altered :
    matchAssign (pyStrip "FOO := $(a$()".toList) =
      some ("FOO".toList, "$(a$()".toList) ∧
    "$()".toList <:+: "$(a$()".toList ∧
    pySub "$(a$()".toList = ['$', '{', 'a', '$', '(', '}'] ∧
    ¬ "$()".toList <:+: pySub "$(a$()".toList := by decide

/-- C9 (amended): the substitution never fires at a `$()` itself — it
rewrites `$(X)` only when the identifier `X` is non-empty — and every
literal occurrence of `$()` preceded only by characters other than `$`
is left unchanged.  (An occurrence whose `$(` is absorbed into the
non-`)` run of an earlier `$(` can still be altered, as the
counterexample shows.) -/
theorem empty_parens_unchanged (a r : List Char) (ha : '$' ∉ a) :
    pySub (a ++ '$' :: '(' :: ')' :: r) =
      a ++ '$' :: '(' :: ')' :: pySub r := by
  induction a with
  | nil =>
    simp only [List.nil_append]
    rw [pySub_cons, if_neg]
    · rw [pySub_cons_ne '(' (')' :: r) (by decide),
        pySub_cons_ne ')' r (by decide)]
    · rintro ⟨-, -, h3, -⟩
      exact h3 (List.takeWhile_cons_of_neg (by decide))
  | cons c a ih =>
    have hc : c ≠ '$' := fun he => ha (he ▸ List.mem_cons_self c a)
    have ha' : '$' ∉ a := fun hm => ha (List.mem_cons_of_mem c hm)
    simp only [List.cons_append]
    rw [pySub_cons_ne c _ hc, ih ha']

/-- Witness for C9 at the concrete value `ab$()cd`. -/
theorem empty_parens_unchanged_witness :
    '$' ∉ "ab".toList ∧
    pySub ("ab".toList ++ '$' :: '(' :: ')' :: "cd".toList) =
      "ab".toList ++ '$' :: '(' :: ')' :: pySub "cd".toList :=
  ⟨by decide, empty_parens_unchanged "ab".toList "cd".toList (by decide)⟩

/-- C10: every standard-output line after the three header lines has the
exact shape `NAME=value`: the name is a non-empty run of uppercase
letters and underscores, and the value carries neither leading nor
trailing whitespace. -/
theorem emitted_line_shape (content out : List Char)
    (h : out ∈ (convertOutput content).drop 3) :
    ∃ n v, out = n ++ '=' :: v ∧ n ≠ [] ∧
      (∀ c ∈ n, isNameChar c = true) ∧
      (∀ c, v.head? = some c → isPyWS c = false) ∧
      (∀ c, v.getLast? = some c → isPyWS c = false) := by
  have hd : (convertOutput content).drop 3 =
      (splitLines content).filterMap processLine := rfl
  rw [hd] at h
  obtain ⟨line, hline, hpl⟩ := List.mem_filterMap.mp h
  obtain ⟨n, v, hm, hout⟩ := processLine_some_inv hpl
  obtain ⟨h1, h2, rest, h3, h4⟩ := matchAssign_inv hm
  refine ⟨n, pySub v, hout, h2, ?_, ?_, ?_⟩
  · intro c hcmem
    rw [h1] at hcmem
    exact List.mem_takeWhile_imp hcmem
  · intro c hch
    rw [pySub_head?, h4] at hch
    exact head?_dropWhile_eq_false hch
  · intro c hcl
    rcases pySub_getLast?_cases v with hcase | hcase
    · rw [hcase] at hcl
      have hv : v ≠ [] := by
        rintro rfl
        exact Option.noConfusion hcl
      have hsuf : v <:+ pyStrip line := by
        have s1 : v <:+ rest := by
          rw [h4]
          exact List.dropWhile_suffix isPyWS
        have s2 : rest <:+ ':' :: '=' :: rest :=
          (List.suffix_cons '=' rest).trans
            (List.suffix_cons ':' ('=' :: rest))
        have s3 : ':' :: '=' :: rest <:+
            (pyStrip line).dropWhile isNameChar := by
          rw [← h3]
          exact List.dropWhile_suffix isPyWS
        have s4 : (pyStrip line).dropWhile isNameChar <:+ pyStrip line :=
          List.dropWhile_suffix isNameChar
        exact s1.trans (s2.trans (s3.trans s4))
      exact pyStrip_getLast?_not_ws ((suffix_getLast? hsuf hv).trans hcl)
    · rw [hcase] at hcl
      injection hcl with hcl
      rw [← hcl]
      decide

/-- Witness for C10 at the one-line file `A := x` and its output line
`A=x`. -/
theorem emitted_line_shape_witness :
    "A=x".toList ∈ (convertOutput "A := x".toList).drop 3 ∧
    ∃ n v, "A=x".toList = n ++ '=' :: v ∧ n ≠ [] ∧
      (∀ c ∈ n, isNameChar c = true) ∧
      (∀ c, v.head? = some c → isPyWS c = false) ∧
      (∀ c, v.getLast? = some c → isPyWS c = false) :=
  ⟨by decide,
    emitted_line_shape "A := x".toList "A=x".toList (by decide)⟩

end Mk2Bash
